import Mathlib

/-!
Verification development for the comic-to-pdf conversion pipeline
(src/comic2pdf.py).  The Python source is shallowly embedded: pure
functions become Lean functions, the filesystem becomes an explicit
state value threaded through the archive processor, and fallible
operations (archive opening, image decoding) return Except values.
Python's stable sort (sorted) is modelled by a stable insertion sort.
-/

namespace Comic2Pdf

/- ### Natural sort key (comic2pdf.py, natural_sort_key, lines 22-27)

Python: re.split splits the string on maximal digit runs, keeping the
runs (the capture group); each piece becomes int(piece) when
piece.isdigit() else piece.lower().  Keys (Python lists mixing int and
str) compare lexicographically; comparing an int element against a str
element would raise TypeError, modelled by cmpNKey returning none. -/

/-- One element of a natural sort key: a lowercased text run or the
integer value of a digit run. -/
inductive NKey where
  | str : List Char → NKey
  | num : Nat → NKey
deriving DecidableEq, Repr

/-- Three-way comparison on Nat, written out explicitly. -/
def cmpNat (a b : Nat) : Ordering :=
  if a < b then .lt else if b < a then .gt else .eq

/-- Python compares characters by code point. -/
def cmpChar (a b : Char) : Ordering := cmpNat a.toNat b.toNat

/-- Lexicographic code-point comparison of character lists (Python str). -/
def cmpChars : List Char → List Char → Ordering
  | [], [] => .eq
  | [], _ :: _ => .lt
  | _ :: _, [] => .gt
  | a :: as, b :: bs => (cmpChar a b).then (cmpChars as bs)

/-- Comparing two key elements; int-vs-str is a Python TypeError (none). -/
def cmpNKey : NKey → NKey → Option Ordering
  | .str a, .str b => some (cmpChars a b)
  | .num a, .num b => some (cmpNat a b)
  | _, _ => none

/-- Python list comparison of keys: lexicographic, a strict short list
sorts before its extensions; any element-level TypeError propagates. -/
def cmpKey : List NKey → List NKey → Option Ordering
  | [], [] => some .eq
  | [], _ :: _ => some .lt
  | _ :: _, [] => some .gt
  | a :: as, b :: bs =>
    match cmpNKey a b with
    | none => none
    | some o => if o = .eq then cmpKey as bs else some o

/-- Pieces of re.split with the digit capture group: the string split
into alternating maximal text and digit runs, boundary text pieces
kept even when empty, so the result is text, digits, text, ..., text.
Built from the right: prepending a char either extends the first
piece, or opens a fresh run in front. -/
def splitRuns : List Char → List (List Char)
  | [] => [[]]
  | c :: cs =>
    if c.isDigit then
      match splitRuns cs with
      | [] => [[], [c], []]
      | [t] => [[], [c], t]
      | t :: d :: rest =>
        if t.isEmpty then [] :: (c :: d) :: rest
        else [] :: [c] :: t :: d :: rest
    else
      match splitRuns cs with
      | [] => [[c]]
      | t :: rest => (c :: t) :: rest

/-- Python str.isdigit: nonempty and all digits. -/
def pyStrIsDigit (t : List Char) : Bool := !t.isEmpty && t.all Char.isDigit

/-- Decimal value of a digit run (Python int(text)). -/
def digitsToNat (t : List Char) : Nat :=
  t.foldl (fun n c => 10 * n + (c.toNat - 48)) 0

/-- Python: int(text) if text.isdigit() else text.lower(). -/
def keyElem (t : List Char) : NKey :=
  if pyStrIsDigit t then .num (digitsToNat t) else .str (t.map Char.toLower)

/-- Key over a raw character list. -/
def natKeyL (cs : List Char) : List NKey := (splitRuns cs).map keyElem

/-- natural_sort_key from comic2pdf.py. -/
def natural_sort_key (s : String) : List NKey := natKeyL s.data

/-- The boolean "key s does not exceed key t" used when sorting; on the
keys this program builds the comparison is always defined. -/
def natLe (a b : String) : Bool :=
  match cmpKey (natural_sort_key a) (natural_sort_key b) with
  | some .gt => false
  | _ => true

/- ### Stable sort (model of Python sorted) -/

/-- Insert a in front of the first element it is le-below. -/
def orderedInsert (le : α → α → Bool) (a : α) : List α → List α
  | [] => [a]
  | b :: bs => if le a b then a :: b :: bs else b :: orderedInsert le a bs

/-- Stable insertion sort: the model of Python's (stable) sorted. -/
def pysorted (le : α → α → Bool) (l : List α) : List α :=
  l.foldr (orderedInsert le) []

/- ### Executable string helpers

Lean's String library walks byte positions through loops the kernel
cannot unfold, so the few string operations the source needs are
restated over character lists. -/

/-- str.endswith. -/
def strEndsWith (s post : String) : Bool :=
  s.data.drop (s.data.length - post.data.length) == post.data

/-- str.startswith. -/
def strStartsWith (s pre : String) : Bool :=
  s.data.take pre.data.length == pre.data

/-- str.split(sep) for a one-character separator; "" splits to [""].
Python never returns an empty list here. -/
def splitOnChar (sep : Char) : List Char → List (List Char)
  | [] => [[]]
  | c :: cs =>
    match splitOnChar sep cs with
    | [] => [[]]
    | t :: rest => if c == sep then [] :: t :: rest else (c :: t) :: rest

/-- sep.join(pieces). -/
def intercalateChars (sep : List Char) : List (List Char) → List Char
  | [] => []
  | [t] => t
  | t :: t' :: ts => t ++ sep ++ intercalateChars sep (t' :: ts)

/- ### Helpers for reasoning about run splitting -/

/-- Does the string end with a digit character? -/
def endsDigit : List Char → Bool
  | [] => false
  | [c] => c.isDigit
  | _ :: c :: cs => endsDigit (c :: cs)

/-- Does the string start with a digit character? -/
def startsDigit : List Char → Bool
  | [] => false
  | c :: _ => c.isDigit

/-- Concatenate two run lists, merging the boundary pieces (the last
piece of the left list continues in the first piece of the right). -/
def glue : List (List Char) → List (List Char) → List (List Char)
  | [], r => r
  | [t], [] => [t]
  | [t], t' :: rest => (t ++ t') :: rest
  | t :: t' :: ts, r => t :: glue (t' :: ts) r

/- ### Document assembler (comic2pdf.py, create_pdf_from_images, 48-71)

An image file on disk is modelled by its basename, its color mode and
a decodability flag (Image.open raises on an undecodable file).  A pdf
page records which source file it came from, the mode after the
palette normalization and, when the compression stage ran, the quality
it re-encoded at. -/

/-- A page image file inside an extracted chapter folder. -/
structure ImageFile where
  name : String
  mode : String
  ok : Bool
deriving DecidableEq, Repr

/-- A page as embedded into the output document. -/
structure PdfPage where
  srcName : String
  mode : String
  compressedAt : Option Nat
deriving DecidableEq, Repr

/-- Failures of the pipeline: an undecodable page image, or an archive
that cannot be opened / extracted. -/
inductive PErr where
  | badImage (name : String)
  | badArchive (name : String)
deriving DecidableEq, Repr

/-- Decidable equality of results, for concrete evaluation. -/
instance instDecEqExcept [DecidableEq ε] [DecidableEq α] :
    DecidableEq (Except ε α) := fun a b =>
  match a, b with
  | .error x, .error y =>
    if h : x = y then .isTrue (by rw [h]) else .isFalse (by simp [h])
  | .ok x, .ok y =>
    if h : x = y then .isTrue (by rw [h]) else .isFalse (by simp [h])
  | .error _, .ok _ => .isFalse (by simp)
  | .ok _, .error _ => .isFalse (by simp)

/-- A generated pdf: its pages in order plus the save quality. -/
structure Doc where
  pages : List PdfPage
  quality : Nat
deriving DecidableEq, Repr

/-- os.path.join for the cases this program meets. -/
def pyJoin (dir name : String) : String :=
  if strStartsWith name "/" then name
  else if dir = "" then name
  else if strEndsWith dir "/" then dir ++ name
  else dir ++ "/" ++ name

/-- The part of a join that precedes the (relative) second argument. -/
def joinPfx (dir : String) : String :=
  if dir = "" then "" else if strEndsWith dir "/" then dir else dir ++ "/"

/-- compress_image (comic2pdf.py, 30-45): re-encode through JPEG at
the given quality; modelled as stamping the quality on the page. -/
def compress_image (quality : Nat) (p : PdfPage) : PdfPage :=
  { p with compressedAt := some quality }

/-- Loop body of create_pdf_from_images (56-66): decode, convert
palette mode to RGB, optionally compress, keep a copy. -/
def processPage (compress : Bool) (quality : Nat) (f : ImageFile) :
    Except PErr PdfPage :=
  if f.ok then
    let mode := if f.mode = "P" then "RGB" else f.mode
    let p : PdfPage := { srcName := f.name, mode := mode, compressedAt := none }
    .ok (if compress then compress_image quality p else p)
  else .error (.badImage f.name)

/-- The whole loop: a failing page aborts, otherwise pages accumulate
in order. -/
def buildPages (compress : Bool) (quality : Nat) :
    List ImageFile → Except PErr (List PdfPage)
  | [] => .ok []
  | f :: fs =>
    match processPage compress quality f with
    | .error e => .error e
    | .ok p =>
      match buildPages compress quality fs with
      | .error e => .error e
      | .ok ps => .ok (p :: ps)

/-- create_pdf_from_images: list the folder, sort the joined paths by
natural_sort_key, decode each page in order, then save a pdf only when
at least one page was collected. -/
def create_pdf_from_images (image_folder : String) (listing : List ImageFile)
    (quality : Nat) (compress : Bool) : Except PErr (Option Doc) :=
  let images := pysorted
    (fun a b => natLe (pyJoin image_folder a.name) (pyJoin image_folder b.name))
    listing
  match buildPages compress quality images with
  | .error e => .error e
  | .ok [] => .ok none
  | .ok ps => .ok (some { pages := ps, quality := quality })

/- ### Naming (comic2pdf.py, generate_manga, 99-112, 123, 139) -/

/-- os.path.splitext: split at the last dot provided some character
before it (in the basename) is not a dot. -/
def pySplitext (s : String) : String × String :=
  let cs := s.data
  match (cs.reverse.findIdx? (fun c => c == '.')) with
  | none => (s, "")
  | some j =>
    let i := cs.length - 1 - j
    if (cs.take i).any (fun c => !(c == '.')) then
      (⟨cs.take i⟩, ⟨cs.drop i⟩)
    else (s, "")

/-- chapter_name (line 102): the zip filename minus its extension. -/
def chapterName (zipName : String) : String := (pySplitext zipName).1

/-- series_name (line 103): chapter_name split on underscores, all but
the last two tokens (Python list slice up to -2), joined with hyphens. -/
def seriesName (zipName : String) : String :=
  let toks := splitOnChar '_' (chapterName zipName).data
  ⟨intercalateChars ['-'] (toks.take (toks.length - 2))⟩

/-- pdf_folder (lines 105-109): output_dir, a slash unless already
present, then the series name. -/
def pdfFolder (output_dir series : String) : String :=
  output_dir ++ (if !strEndsWith output_dir "/" then "/" else "") ++ series

/-- manga_pdf_file (line 123). -/
def mangaPdfName (series chapterFolder : String) : String :=
  series ++ "_" ++ chapterFolder ++ ".pdf"

/- ### Archive processor (comic2pdf.py, generate_manga, 74-160)

The output tree is explicit state: a list of created directories and a
list of (directory, filename, content) files.  It is threaded through
every step and survives errors, the way a real filesystem does. -/

/-- A chapter subfolder of an extracted archive. -/
structure ChapterDir where
  name : String
  pages : List ImageFile
deriving DecidableEq, Repr

/-- An entry of the input directory.  contents = none models an
archive whose opening or extraction raises. -/
structure ZEntry where
  name : String
  contents : Option (List ChapterDir)
deriving DecidableEq, Repr

/-- The output filesystem. -/
structure OutFS where
  dirs : List String
  files : List (String × String × Doc)
deriving DecidableEq, Repr

/-- os.listdir on an output directory: names of the files in it. -/
def listdirNames (fs : OutFS) (dir : String) : List String :=
  (fs.files.filter (fun f => f.1 = dir)).map (fun f => f.2.1)

/-- Writing a pdf: replaces any existing file of that name. -/
def writeFile (fs : OutFS) (dir name : String) (d : Doc) : OutFS :=
  { fs with
    files := fs.files.filter (fun f => !(f.1 = dir && f.2.1 = name))
      ++ [(dir, name, d)] }

/-- os.makedirs guarded by os.path.exists (lines 110-111). -/
def mkdirP (fs : OutFS) (dir : String) : OutFS :=
  if dir ∈ fs.dirs then fs else { fs with dirs := fs.dirs ++ [dir] }

/-- One output state extends another: every directory and file of the
first is present in the second. -/
def fsLE (a b : OutFS) : Prop :=
  (∀ d ∈ a.dirs, d ∈ b.dirs) ∧ (∀ f ∈ a.files, f ∈ b.files)

/-- The configuration surface the CLI layer passes in. -/
structure Config where
  force : Bool
  compress : Bool
  quality : Nat
deriving DecidableEq, Repr

/-- The temporary extraction root; page order is independent of its
concrete name, so it is a fixed placeholder in the model. -/
def tmpRoot : String := "/tmp/extract"

/-- Chapter loop (lines 118-146): skip when the pdf already exists and
force is off, otherwise assemble and, when pages existed, write; the
chapter counter increments after every non-skipped chapter. -/
def processChapters (cfg : Config) (series pdf_folder : String) :
    List ChapterDir → OutFS → Nat → OutFS × Except PErr Nat
  | [], fs, cnt => (fs, .ok cnt)
  | ch :: rest, fs, cnt =>
    let pdfName := mangaPdfName series ch.name
    if pdfName ∈ listdirNames fs pdf_folder ∧ cfg.force = false then
      processChapters cfg series pdf_folder rest fs cnt
    else
      match create_pdf_from_images (pyJoin tmpRoot ch.name) ch.pages
          cfg.quality cfg.compress with
      | .error e => (fs, .error e)
      | .ok none => processChapters cfg series pdf_folder rest fs (cnt + 1)
      | .ok (some d) =>
          processChapters cfg series pdf_folder rest
            (writeFile fs pdf_folder pdfName d) (cnt + 1)

/-- One recognized archive (lines 101-146): derive the names, create
the series folder, then open the archive; opening failure raises after
the folder exists.  Chapter folders are visited in natural order. -/
def processArchive (cfg : Config) (output_dir : String) (e : ZEntry)
    (fs : OutFS) : OutFS × Except PErr Nat :=
  let series := seriesName e.name
  let folder := pdfFolder output_dir series
  let fs1 := mkdirP fs folder
  match e.contents with
  | none => (fs1, .error (.badArchive e.name))
  | some chs =>
    processChapters cfg series folder
      (pysorted (fun a b => natLe a.name b.name) chs) fs1 0

/-- Loop over the input root (line 99): only names ending in ".zip"
are touched; an error aborts the remaining entries. -/
def processArchives (cfg : Config) (output_dir : String) :
    List ZEntry → OutFS → Nat → OutFS × Except PErr Nat
  | [], fs, n => (fs, .ok n)
  | e :: rest, fs, n =>
    if strEndsWith e.name ".zip" then
      match processArchive cfg output_dir e fs with
      | (fs1, .error err) => (fs1, .error err)
      | (fs1, .ok _) => processArchives cfg output_dir rest fs1 (n + 1)
    else processArchives cfg output_dir rest fs n

/-- The run's final log event (lines 155-159). -/
inductive FinalEvent where
  | noWork
  | processed (n : Nat)
deriving DecidableEq, Repr

/-- generate_manga: process the listing, then report either the
distinct no-work outcome or the summary; both paths return status 0. -/
def generate_manga (cfg : Config) (mangaListing : List ZEntry)
    (output_dir : String) (fs : OutFS) :
    OutFS × Except PErr (Nat × FinalEvent) :=
  match processArchives cfg output_dir mangaListing fs 0 with
  | (fs1, .error e) => (fs1, .error e)
  | (fs1, .ok n) =>
    (fs1, .ok (0, if n = 0 then .noWork else .processed n))

/-- Shape of a re.split result: text pieces (no digit characters)
alternating with nonempty all-digit pieces, first and last text. -/
inductive RunsShape : List (List Char) → Prop
  | last (t : List Char) : (∀ c ∈ t, c.isDigit = false) → RunsShape [t]
  | cons (t d : List Char) (rest : List (List Char)) :
      (∀ c ∈ t, c.isDigit = false) → d ≠ [] → (∀ c ∈ d, c.isDigit = true) →
      RunsShape rest → RunsShape (t :: d :: rest)

/-- Shape of a natural sort key: str and num elements alternating,
starting and ending with str. -/
inductive KShape : List NKey → Prop
  | last (t : List Char) : KShape [NKey.str t]
  | cons (t : List Char) (n : Nat) (rest : List NKey) :
      KShape rest → KShape (NKey.str t :: NKey.num n :: rest)

/-- Page listing of a chapter whose pages carry the lexicographic
listing order 1, 10, 11, 2, ..., 9. -/
def demoListing : List ImageFile :=
  ["1.jpg", "10.jpg", "11.jpg", "2.jpg", "3.jpg", "4.jpg", "5.jpg",
    "6.jpg", "7.jpg", "8.jpg", "9.jpg"].map (fun n => ⟨n, "RGB", true⟩)

/-- The numerically ordered pages the demo chapter must produce. -/
def demoPages : List PdfPage :=
  ["1.jpg", "2.jpg", "3.jpg", "4.jpg", "5.jpg", "6.jpg", "7.jpg",
    "8.jpg", "9.jpg", "10.jpg", "11.jpg"].map (fun n => ⟨n, "RGB", none⟩)

end Comic2Pdf

namespace Comic2Pdf

/- ### Basic facts about the three-way comparisons -/

theorem cmpNat_eq_iff {a b : Nat} : cmpNat a b = .eq ↔ a = b := by
  unfold cmpNat
  split <;> [skip; split] <;> simp <;> omega

theorem cmpNat_lt_iff {a b : Nat} : cmpNat a b = .lt ↔ a < b := by
  unfold cmpNat
  split <;> [skip; split] <;> simp <;> omega

theorem cmpNat_gt_iff {a b : Nat} : cmpNat a b = .gt ↔ b < a := by
  unfold cmpNat
  split <;> [skip; split] <;> simp <;> omega

theorem cmpNat_refl (a : Nat) : cmpNat a a = .eq := cmpNat_eq_iff.mpr rfl

theorem cmpNat_trans_lt {a b c : Nat} (h1 : cmpNat a b = .lt)
    (h2 : cmpNat b c = .lt) : cmpNat a c = .lt := by
  rw [cmpNat_lt_iff] at *; omega

theorem cmpChar_eq_iff {a b : Char} : cmpChar a b = .eq ↔ a = b := by
  unfold cmpChar
  rw [cmpNat_eq_iff]
  constructor
  · intro h
    have := congrArg Char.ofNat h
    rwa [Char.ofNat_toNat, Char.ofNat_toNat] at this
  · intro h; rw [h]

theorem cmpChar_refl (a : Char) : cmpChar a a = .eq := cmpChar_eq_iff.mpr rfl

theorem cmpChar_trans_lt {a b c : Char} (h1 : cmpChar a b = .lt)
    (h2 : cmpChar b c = .lt) : cmpChar a c = .lt :=
  cmpNat_trans_lt h1 h2

theorem cmpChars_refl (t : List Char) : cmpChars t t = .eq := by
  induction t with
  | nil => rfl
  | cons c cs ih => simp [cmpChars, cmpChar_refl, ih, Ordering.then]

theorem cmpChars_eq_iff {a b : List Char} : cmpChars a b = .eq ↔ a = b := by
  constructor
  · intro h
    induction a generalizing b with
    | nil => cases b with
      | nil => rfl
      | cons y ys => simp [cmpChars] at h
    | cons x xs ih =>
      cases b with
      | nil => simp [cmpChars] at h
      | cons y ys =>
        rw [cmpChars, Ordering.then_eq_eq] at h
        rw [cmpChar_eq_iff.mp h.1, ih h.2]
  · intro h; rw [h]; exact cmpChars_refl b

theorem cmpChars_trans_lt {a b c : List Char} (h1 : cmpChars a b = .lt)
    (h2 : cmpChars b c = .lt) : cmpChars a c = .lt := by
  induction a generalizing b c with
  | nil =>
    cases b with
    | nil => simp [cmpChars] at h1
    | cons y ys =>
      cases c with
      | nil => simp [cmpChars] at h2
      | cons z zs => simp [cmpChars]
  | cons x xs ih =>
    cases b with
    | nil => simp [cmpChars] at h1
    | cons y ys =>
      cases c with
      | nil => simp [cmpChars] at h2
      | cons z zs =>
        rw [cmpChars, Ordering.then_eq_lt] at h1 h2 ⊢
        rcases h1 with h1 | ⟨h1e, h1r⟩
        · rcases h2 with h2 | ⟨h2e, h2r⟩
          · exact Or.inl (cmpChar_trans_lt h1 h2)
          · rw [cmpChar_eq_iff] at h2e
            rw [← h2e]
            exact Or.inl h1
        · rw [cmpChar_eq_iff] at h1e
          subst h1e
          rcases h2 with h2 | ⟨h2e, h2r⟩
          · exact Or.inl h2
          · exact Or.inr ⟨h2e, ih h1r h2r⟩

theorem cmpNKey_refl (x : NKey) : cmpNKey x x = some .eq := by
  cases x with
  | str t => simp [cmpNKey, cmpChars_refl]
  | num n => simp [cmpNKey, cmpNat_refl]

theorem cmpKey_refl (k : List NKey) : cmpKey k k = some .eq := by
  induction k with
  | nil => rfl
  | cons x xs ih => simp [cmpKey, cmpNKey_refl, ih]

theorem cmpKey_append_left (X A B : List NKey) :
    cmpKey (X ++ A) (X ++ B) = cmpKey A B := by
  induction X with
  | nil => rfl
  | cons x xs ih => simp [cmpKey, cmpNKey_refl, ih]

theorem cmpNat_swap (a b : Nat) : cmpNat b a = (cmpNat a b).swap := by
  rcases h : cmpNat a b with _ | _ | _
  · rw [cmpNat_lt_iff] at h
    simp [Ordering.swap, cmpNat_gt_iff.mpr h]
  · rw [cmpNat_eq_iff] at h
    simp [Ordering.swap, h, cmpNat_refl]
  · rw [cmpNat_gt_iff] at h
    simp [Ordering.swap, cmpNat_lt_iff.mpr h]

theorem cmpChar_swap (a b : Char) : cmpChar b a = (cmpChar a b).swap :=
  cmpNat_swap a.toNat b.toNat

theorem cmpChars_swap (a b : List Char) : cmpChars b a = (cmpChars a b).swap := by
  induction a generalizing b with
  | nil => cases b <;> rfl
  | cons x xs ih =>
    cases b with
    | nil => rfl
    | cons y ys =>
      rw [cmpChars, cmpChars, Ordering.swap_then, ← cmpChar_swap, ← ih]

theorem cmpNKey_swap (x y : NKey) :
    cmpNKey y x = (cmpNKey x y).map Ordering.swap := by
  cases x <;> cases y
  · rw [cmpNKey, cmpNKey, cmpChars_swap]; rfl
  · rfl
  · rfl
  · rw [cmpNKey, cmpNKey, cmpNat_swap]; rfl

theorem cmpKey_swap (a b : List NKey) :
    cmpKey b a = (cmpKey a b).map Ordering.swap := by
  induction a generalizing b with
  | nil => cases b <;> rfl
  | cons x xs ih =>
    cases b with
    | nil => rfl
    | cons y ys =>
      rw [cmpKey, cmpKey, cmpNKey_swap]
      rcases cmpNKey x y with _ | o
      · rfl
      · cases o <;> simp [Ordering.swap, ih]

/- ### The shape of every key this program builds -/

theorem runsShape_splitRuns (cs : List Char) : RunsShape (splitRuns cs) := by
  induction cs with
  | nil => exact RunsShape.last [] (by simp)
  | cons c cs ih =>
    rw [splitRuns]
    by_cases hc : c.isDigit
    · simp only [hc, if_true]
      rcases hS : splitRuns cs with _ | ⟨t, rest⟩
      · rw [hS] at ih; cases ih
      · rw [hS] at ih
        cases rest with
        | nil =>
          cases ih with
          | last _ ht =>
            exact RunsShape.cons [] [c] [t] (by simp) (by simp)
              (by simpa using hc) (RunsShape.last t ht)
        | cons d rest =>
          cases ih with
          | cons _ _ _ ht hd hdd hrest =>
            by_cases hte : t.isEmpty
            · simp only [hte, if_true]
              exact RunsShape.cons [] (c :: d) rest (by simp)
                (by simp) (by simpa [hc] using hdd)
                hrest
            · simp only [hte, if_false]
              exact RunsShape.cons [] [c] (t :: d :: rest) (by simp) (by simp)
                (by simpa using hc) (RunsShape.cons t d rest ht hd hdd hrest)
    · simp only [hc, if_false]
      rcases hS : splitRuns cs with _ | ⟨t, rest⟩
      · rw [hS] at ih; cases ih
      · rw [hS] at ih
        cases ih with
        | last _ ht =>
          refine RunsShape.last (c :: t) ?_
          intro x hx
          rcases List.mem_cons.mp hx with rfl | hx
          · simpa using hc
          · exact ht x hx
        | cons _ d rest ht hd hdd hrest =>
          refine RunsShape.cons (c :: t) d rest ?_ hd hdd hrest
          intro x hx
          rcases List.mem_cons.mp hx with rfl | hx
          · simpa using hc
          · exact ht x hx

theorem splitRuns_ne_nil (cs : List Char) : splitRuns cs ≠ [] := by
  intro h
  have := runsShape_splitRuns cs
  rw [h] at this
  cases this

theorem keyElem_text {t : List Char} (ht : ∀ c ∈ t, c.isDigit = false) :
    keyElem t = .str (t.map Char.toLower) := by
  cases t with
  | nil => rfl
  | cons c cs =>
    have : c.isDigit = false := ht c (by simp)
    simp [keyElem, pyStrIsDigit, this]

theorem keyElem_digits {d : List Char} (hne : d ≠ [])
    (hd : ∀ c ∈ d, c.isDigit = true) : keyElem d = .num (digitsToNat d) := by
  cases d with
  | nil => exact absurd rfl hne
  | cons c cs =>
    have hc : c.isDigit = true := hd c (by simp)
    have hcs : cs.all Char.isDigit = true := by
      rw [List.all_eq_true]
      intro x hx
      exact hd x (by simp [hx])
    simp [keyElem, pyStrIsDigit, hc, hcs]

theorem kshape_map {ps : List (List Char)} (h : RunsShape ps) :
    KShape (ps.map keyElem) := by
  induction h with
  | last t ht =>
    rw [List.map_singleton, keyElem_text ht]
    exact KShape.last _
  | cons t d rest ht hd hdd _ ih =>
    rw [List.map_cons, List.map_cons, keyElem_text ht, keyElem_digits hd hdd]
    exact KShape.cons _ _ _ ih

theorem kshape_natKeyL (cs : List Char) : KShape (natKeyL cs) :=
  kshape_map (runsShape_splitRuns cs)

theorem kshape_key (s : String) : KShape (natural_sort_key s) :=
  kshape_natKeyL s.data

/- ### Totality and order laws on shaped keys -/

theorem cmpKey_isSome {a b : List NKey} (ha : KShape a) (hb : KShape b) :
    (cmpKey a b).isSome = true := by
  induction ha generalizing b with
  | last ta =>
    cases hb with
    | last tb => simp [cmpKey, cmpNKey]; split <;> simp
    | cons tb nb rb _ => simp [cmpKey, cmpNKey]; split <;> simp
  | cons ta na ra _ ih =>
    cases hb with
    | last tb => simp [cmpKey, cmpNKey]; split <;> simp
    | cons tb nb rb hrb =>
      simp only [cmpKey, cmpNKey]
      split
      · split
        · exact ih hrb
        · simp
      · simp

theorem cmpKey_cons_str (ta tb : List Char) (A B : List NKey) :
    cmpKey (.str ta :: A) (.str tb :: B) =
      if cmpChars ta tb = .eq then cmpKey A B else some (cmpChars ta tb) := rfl

theorem cmpKey_cons_num (na nb : Nat) (A B : List NKey) :
    cmpKey (.num na :: A) (.num nb :: B) =
      if cmpNat na nb = .eq then cmpKey A B else some (cmpNat na nb) := rfl

theorem cmpKey_str_lt_inv {ta tb : List Char} {A B : List NKey}
    (h : cmpKey (.str ta :: A) (.str tb :: B) = some .lt) :
    cmpChars ta tb = .lt ∨ (ta = tb ∧ cmpKey A B = some .lt) := by
  rw [cmpKey_cons_str] at h
  split at h
  · exact Or.inr ⟨cmpChars_eq_iff.mp (by assumption), h⟩
  · exact Or.inl (Option.some.inj h)

theorem cmpKey_num_lt_inv {na nb : Nat} {A B : List NKey}
    (h : cmpKey (.num na :: A) (.num nb :: B) = some .lt) :
    cmpNat na nb = .lt ∨ (na = nb ∧ cmpKey A B = some .lt) := by
  rw [cmpKey_cons_num] at h
  split at h
  · exact Or.inr ⟨cmpNat_eq_iff.mp (by assumption), h⟩
  · exact Or.inl (Option.some.inj h)

theorem cmpKey_str_lt_of_lt {ta tb : List Char} (A B : List NKey)
    (h : cmpChars ta tb = .lt) :
    cmpKey (.str ta :: A) (.str tb :: B) = some .lt := by
  rw [cmpKey_cons_str, if_neg (by rw [h]; simp), h]

theorem cmpKey_str_lt_of_eq {ta tb : List Char} {A B : List NKey}
    (he : ta = tb) (h : cmpKey A B = some .lt) :
    cmpKey (.str ta :: A) (.str tb :: B) = some .lt := by
  subst he
  rw [cmpKey_cons_str, if_pos (cmpChars_refl ta), h]

theorem cmpKey_num_lt_of_lt {na nb : Nat} (A B : List NKey)
    (h : cmpNat na nb = .lt) :
    cmpKey (.num na :: A) (.num nb :: B) = some .lt := by
  rw [cmpKey_cons_num, if_neg (by rw [h]; simp), h]

theorem cmpKey_num_lt_of_eq {na nb : Nat} {A B : List NKey}
    (he : na = nb) (h : cmpKey A B = some .lt) :
    cmpKey (.num na :: A) (.num nb :: B) = some .lt := by
  subst he
  rw [cmpKey_cons_num, if_pos (cmpNat_refl na), h]

theorem cmpKey_trans_lt {a : List NKey} (ha : KShape a) :
    ∀ {b c : List NKey}, KShape b → KShape c → cmpKey a b = some .lt →
      cmpKey b c = some .lt → cmpKey a c = some .lt := by
  induction ha with
  | last ta =>
    intro b c hb hc h1 h2
    cases hb with
    | last tb =>
      rcases cmpKey_str_lt_inv h1 with hab | ⟨rfl, hr⟩
      · cases hc with
        | last tc =>
          rcases cmpKey_str_lt_inv h2 with hbc | ⟨rfl, hr2⟩
          · exact cmpKey_str_lt_of_lt _ _ (cmpChars_trans_lt hab hbc)
          · exact cmpKey_str_lt_of_lt _ _ hab
        | cons tc nc rc _ =>
          rcases cmpKey_str_lt_inv h2 with hbc | ⟨rfl, _⟩
          · exact cmpKey_str_lt_of_lt _ _ (cmpChars_trans_lt hab hbc)
          · exact cmpKey_str_lt_of_lt _ _ hab
      · simp [cmpKey] at hr
    | cons tb nb rb hrb =>
      have h1x := cmpKey_str_lt_inv h1
      cases hc with
      | last tc =>
        rcases cmpKey_str_lt_inv h2 with hbc | ⟨rfl, hr2⟩
        · rcases h1x with hab | ⟨rfl, _⟩
          · exact cmpKey_str_lt_of_lt _ _ (cmpChars_trans_lt hab hbc)
          · exact cmpKey_str_lt_of_lt _ _ hbc
        · simp [cmpKey] at hr2
      | cons tc nc rc hrc =>
        rcases cmpKey_str_lt_inv h2 with hbc | ⟨rfl, _⟩
        · rcases h1x with hab | ⟨rfl, _⟩
          · exact cmpKey_str_lt_of_lt _ _ (cmpChars_trans_lt hab hbc)
          · exact cmpKey_str_lt_of_lt _ _ hbc
        · rcases h1x with hab | ⟨rfl, _⟩
          · exact cmpKey_str_lt_of_lt _ _ hab
          · exact cmpKey_str_lt_of_eq rfl rfl
  | cons ta na ra hra ih =>
    intro b c hb hc h1 h2
    cases hb with
    | last tb =>
      rcases cmpKey_str_lt_inv h1 with hab | ⟨rfl, hr⟩
      · cases hc with
        | last tc =>
          rcases cmpKey_str_lt_inv h2 with hbc | ⟨rfl, hr2⟩
          · exact cmpKey_str_lt_of_lt _ _ (cmpChars_trans_lt hab hbc)
          · exact cmpKey_str_lt_of_lt _ _ hab
        | cons tc nc rc _ =>
          rcases cmpKey_str_lt_inv h2 with hbc | ⟨rfl, _⟩
          · exact cmpKey_str_lt_of_lt _ _ (cmpChars_trans_lt hab hbc)
          · exact cmpKey_str_lt_of_lt _ _ hab
      · simp [cmpKey] at hr
    | cons tb nb rb hrb =>
      have h1x := cmpKey_str_lt_inv h1
      cases hc with
      | last tc =>
        rcases cmpKey_str_lt_inv h2 with hbc | ⟨rfl, hr2⟩
        · rcases h1x with hab | ⟨rfl, _⟩
          · exact cmpKey_str_lt_of_lt _ _ (cmpChars_trans_lt hab hbc)
          · exact cmpKey_str_lt_of_lt _ _ hbc
        · simp [cmpKey] at hr2
      | cons tc nc rc hrc =>
        rcases cmpKey_str_lt_inv h2 with hbc | ⟨rfl, h2t⟩
        · rcases h1x with hab | ⟨rfl, _⟩
          · exact cmpKey_str_lt_of_lt _ _ (cmpChars_trans_lt hab hbc)
          · exact cmpKey_str_lt_of_lt _ _ hbc
        · rcases h1x with hab | ⟨rfl, h1t⟩
          · exact cmpKey_str_lt_of_lt _ _ hab
          · refine cmpKey_str_lt_of_eq rfl ?_
            rcases cmpKey_num_lt_inv h1t with hn1 | ⟨rfl, hr1⟩
            · rcases cmpKey_num_lt_inv h2t with hn2 | ⟨rfl, hr2⟩
              · exact cmpKey_num_lt_of_lt _ _ (cmpNat_trans_lt hn1 hn2)
              · exact cmpKey_num_lt_of_lt _ _ hn1
            · rcases cmpKey_num_lt_inv h2t with hn2 | ⟨rfl, hr2⟩
              · exact cmpKey_num_lt_of_lt _ _ hn2
              · exact cmpKey_num_lt_of_eq rfl (ih hrb hrc hr1 hr2)

/- ### How run splitting interacts with appending strings -/

theorem endsDigit_cons (x : Char) {ys : List Char} (h : ys ≠ []) :
    endsDigit (x :: ys) = endsDigit ys := by
  cases ys with
  | nil => exact absurd rfl h
  | cons y ys => rfl

theorem endsDigit_append_single (u : List Char) (c : Char) :
    endsDigit (u ++ [c]) = c.isDigit := by
  induction u with
  | nil => rfl
  | cons x xs ih => rw [List.cons_append, endsDigit_cons x (by simp), ih]

theorem endsDigit_last {l : List Char} {c : Char}
    (h : l.drop (l.length - 1) = [c]) : endsDigit l = c.isDigit := by
  induction l with
  | nil => simp at h
  | cons x xs ih =>
    cases xs with
    | nil =>
      simp at h
      rw [h]
      rfl
    | cons y ys =>
      rw [endsDigit_cons x (by simp)]
      refine ih ?_
      simpa [Nat.succ_sub_one] using h

theorem glue_ne_nil (x : List Char) (xs r : List (List Char)) :
    glue (x :: xs) r ≠ [] := by
  cases xs with
  | nil => cases r <;> simp [glue]
  | cons x' xs => simp [glue]

theorem glue_cons_head (c : Char) (x : List Char) (xs r : List (List Char))
    {y : List Char} {ys : List (List Char)} (h : glue (x :: xs) r = y :: ys) :
    glue ((c :: x) :: xs) r = (c :: y) :: ys := by
  cases xs with
  | nil =>
    cases r with
    | nil =>
      rw [glue] at h ⊢
      cases h
      rfl
    | cons t rest =>
      rw [glue] at h ⊢
      cases h
      rfl
  | cons x' xs =>
    rw [glue] at h ⊢
    cases h
    rfl

theorem glue_empty_right (L R : List (List Char)) (h : L ≠ []) :
    glue L ([] :: R) = L ++ R := by
  induction L with
  | nil => exact absurd rfl h
  | cons t ts ih =>
    cases ts with
    | nil => rw [glue]; simp
    | cons t' ts => rw [glue, ih (by simp)]; rfl

theorem splitRuns_single : ∀ {u t : List Char}, splitRuns u = [t] → t = u := by
  intro u
  induction u with
  | nil => intro t h; rw [splitRuns] at h; cases h; rfl
  | cons c cs ih =>
    intro t h
    rw [splitRuns] at h
    by_cases hc : c.isDigit
    · rw [if_pos hc] at h
      rcases hS : splitRuns cs with _ | ⟨t', rest⟩
      · exact absurd hS (splitRuns_ne_nil cs)
      · rw [hS] at h
        cases rest with
        | nil => simp at h
        | cons d rest =>
          by_cases hte : t'.isEmpty <;> simp [hte] at h
    · rw [if_neg hc] at h
      rcases hS : splitRuns cs with _ | ⟨t', rest⟩
      · exact absurd hS (splitRuns_ne_nil cs)
      · rw [hS] at h
        simp at h
        rcases h with ⟨h1, h2⟩
        have ht' : t' = cs := by
          apply ih
          rw [hS, h2]
        rw [← h1, ht']


theorem startsDigit_of_splitRuns {v t : List Char} {rest : List (List Char)}
    (h : splitRuns v = t :: rest) (ht : t = []) (hr : rest ≠ []) :
    startsDigit v = true := by
  cases v with
  | nil =>
    rw [splitRuns] at h
    cases h
    exact absurd rfl hr
  | cons c cs =>
    by_cases hc : c.isDigit
    · simp [startsDigit, hc]
    · rw [splitRuns, if_neg hc] at h
      rcases hS : splitRuns cs with _ | ⟨t', rest'⟩
      · exact absurd hS (splitRuns_ne_nil cs)
      · rw [hS] at h
        cases h
        simp at ht

theorem splitRuns_append : ∀ (u v : List Char),
    (endsDigit u = false ∨ startsDigit v = false) →
    splitRuns (u ++ v) = glue (splitRuns u) (splitRuns v) := by
  intro u
  induction u with
  | nil =>
    intro v _
    rcases hS : splitRuns v with _ | ⟨t, rest⟩
    · exact absurd hS (splitRuns_ne_nil v)
    · simp only [List.nil_append, hS, splitRuns, glue, List.nil_append]
  | cons c u' ihu =>
    intro v hcond
    have hcond' : endsDigit u' = false ∨ startsDigit v = false := by
      rcases hcond with hcond | hcond
      · cases u' with
        | nil => exact Or.inl rfl
        | cons e u'' => exact Or.inl (by rwa [endsDigit_cons c (by simp)] at hcond)
      · exact Or.inr hcond
    have hSw : splitRuns (u' ++ v) = glue (splitRuns u') (splitRuns v) := ihu v hcond'
    rcases hSv : splitRuns v with _ | ⟨h0, tl⟩
    · exact absurd hSv (splitRuns_ne_nil v)
    rcases hSu : splitRuns u' with _ | ⟨t, ts⟩
    · exact absurd hSu (splitRuns_ne_nil u')
    by_cases hc : c.isDigit
    · -- digit head character
      cases ts with
      | nil =>
        -- splitRuns u' = [t], hence t = u'
        have htu : t = u' := splitRuns_single hSu
        rw [hSu, hSv, glue] at hSw
        cases tl with
        | nil =>
          -- splitRuns (u' ++ v) = [t ++ h0]
          simp only [List.cons_append, splitRuns, List.append_eq, hc, if_true, hSw, hSu, hSv, glue]
        | cons d0 tl' =>
          have hne : ¬(t ++ h0 = []) := by
            intro hempty
            rcases List.append_eq_nil.mp hempty with ⟨ht0, hh0⟩
            have hsv : startsDigit v = true :=
              startsDigit_of_splitRuns hSv hh0 (by simp)
            have hu'nil : u' = [] := by rw [← htu, ht0]
            rcases hcond with hcond | hcond
            · rw [hu'nil] at hcond
              simp [endsDigit, hc] at hcond
            · rw [hsv] at hcond; cases hcond
          have hef : (t ++ h0).isEmpty = false := by
            cases htl : t ++ h0 with
            | nil => exact absurd htl hne
            | cons x xs => rfl
          simp only [List.cons_append, splitRuns, List.append_eq, hc, if_true, hSw, hSu,
            hSv, glue, hef, if_false, Bool.false_eq_true]
      | cons d rest =>
        -- splitRuns u' = t :: d :: rest
        rw [hSu, hSv, glue] at hSw
        rcases hG : glue (d :: rest) (h0 :: tl) with _ | ⟨g0, gtl⟩
        · exact absurd hG (glue_ne_nil d rest (h0 :: tl))
        rw [hG] at hSw
        by_cases hte : t.isEmpty
        · simp only [List.cons_append, splitRuns, List.append_eq, hc, if_true, hSw, hSu,
            hSv, glue, hte]
          rw [glue_cons_head c d rest (h0 :: tl) hG]
        · simp only [List.cons_append, splitRuns, List.append_eq, hc, if_true, hSw, hSu,
            hSv, glue, hte, if_false, Bool.false_eq_true]
          rw [hG]
    · -- non-digit head character
      rw [hSu, hSv] at hSw
      rcases hG : glue (t :: ts) (h0 :: tl) with _ | ⟨m0, mtl⟩
      · exact absurd hG (glue_ne_nil t ts (h0 :: tl))
      rw [hG] at hSw
      simp only [List.cons_append, splitRuns, List.append_eq, hc, if_false,
        Bool.false_eq_true, hSw, hSu, hSv]
      rw [glue_cons_head c t ts (h0 :: tl) hG]

theorem splitRuns_digits : ∀ {d : List Char}, d ≠ [] →
    (∀ c ∈ d, c.isDigit = true) → ∀ {suf : List Char}, startsDigit suf = false →
    splitRuns (d ++ suf) = [] :: d :: splitRuns suf := by
  intro d
  induction d with
  | nil => intro h; exact absurd rfl h
  | cons c d' ih =>
    intro _ hdig suf hsuf
    have hc : c.isDigit = true := hdig c (by simp)
    cases d' with
    | nil =>
      rcases hS : splitRuns suf with _ | ⟨t, rest⟩
      · exact absurd hS (splitRuns_ne_nil suf)
      cases rest with
      | nil =>
        rw [List.singleton_append, splitRuns, if_pos hc, hS]
      | cons d0 rest' =>
        have ht : ¬(t = []) := fun h0 =>
          by rw [startsDigit_of_splitRuns hS h0 (by simp)] at hsuf; cases hsuf
        have hef : t.isEmpty = false := by
          cases htl : t with
          | nil => exact absurd htl ht
          | cons x xs => rfl
        rw [List.singleton_append, splitRuns, if_pos hc, hS]
        simp [hef]
    | cons c2 d'' =>
      have hrec := ih (by simp) (fun x hx => hdig x (by simp [hx])) hsuf
      rw [List.cons_append, splitRuns, if_pos hc, hrec]
      simp

theorem splitRuns_nodigits : ∀ {cs : List Char},
    (∀ c ∈ cs, c.isDigit = false) → splitRuns cs = [cs] := by
  intro cs
  induction cs with
  | nil => intro _; rfl
  | cons c cs ih =>
    intro h
    have hc : c.isDigit = false := h c (by simp)
    rw [splitRuns, if_neg (by rw [hc]; simp),
      ih (fun x hx => h x (by simp [hx]))]

theorem cmpChars_append_left (u x y : List Char) :
    cmpChars (u ++ x) (u ++ y) = cmpChars x y := by
  induction u with
  | nil => rfl
  | cons c cs ih =>
    rw [List.cons_append, List.cons_append, cmpChars, cmpChar_refl, ih]
    rfl

theorem cmpKey_cons_same (x : NKey) (A B : List NKey) :
    cmpKey (x :: A) (x :: B) = cmpKey A B := by
  rw [cmpKey, cmpNKey_refl]
  simp

theorem cmpKey_single_str (a b : List Char) :
    cmpKey [NKey.str a] [NKey.str b] = some (cmpChars a b) := by
  rw [cmpKey_cons_str]
  split
  · rw [cmpKey]
    congr 1
    exact (by assumption : cmpChars a b = .eq).symm
  · rfl

theorem runsShape_head {t : List Char} {rest : List (List Char)}
    (h : RunsShape (t :: rest)) : ∀ c ∈ t, c.isDigit = false := by
  cases h with
  | last _ ht => exact ht
  | cons _ _ _ ht _ _ _ => exact ht

theorem runsShape_getLast : ∀ {L : List (List Char)}, RunsShape L →
    ∀ c ∈ L.getLast?.getD [], c.isDigit = false := by
  intro L h
  induction h with
  | last t ht => simpa using ht
  | cons t d rest _ _ _ hrest ih =>
    have hne : rest ≠ [] := by cases hrest <;> simp
    rcases List.exists_cons_of_ne_nil hne with ⟨r0, r', hr⟩
    subst hr
    simpa [List.getLast?_cons_cons] using ih

theorem natKeyL_decomp {pre d suf : List Char} (hpre : endsDigit pre = false)
    (hd : d ≠ []) (hdd : ∀ c ∈ d, c.isDigit = true)
    (hsuf : startsDigit suf = false) :
    natKeyL (pre ++ d ++ suf) =
      natKeyL pre ++ NKey.num (digitsToNat d) :: natKeyL suf := by
  simp only [natKeyL]
  rw [List.append_assoc, splitRuns_append pre (d ++ suf) (Or.inl hpre),
    splitRuns_digits hd hdd hsuf,
    glue_empty_right _ _ (splitRuns_ne_nil pre),
    List.map_append, List.map_cons, keyElem_digits hd hdd]

theorem cmpKey_glue_eq : ∀ (L : List (List Char)), L ≠ [] →
    (∀ c ∈ L.getLast?.getD [], c.isDigit = false) →
    ∀ (a b : List Char),
    cmpKey ((glue L (splitRuns a)).map keyElem)
        ((glue L (splitRuns b)).map keyElem) =
      cmpKey (natKeyL a) (natKeyL b) := by
  intro L
  induction L with
  | nil => intro h; exact absurd rfl h
  | cons t ts ih =>
    intro _ hlast a b
    cases ts with
    | nil =>
      rcases hSa : splitRuns a with _ | ⟨ha, ta⟩
      · exact absurd hSa (splitRuns_ne_nil a)
      rcases hSb : splitRuns b with _ | ⟨hb, tb⟩
      · exact absurd hSb (splitRuns_ne_nil b)
      have hta : ∀ c ∈ ha, c.isDigit = false :=
        runsShape_head (hSa ▸ runsShape_splitRuns a)
      have htb : ∀ c ∈ hb, c.isDigit = false :=
        runsShape_head (hSb ▸ runsShape_splitRuns b)
      have htt : ∀ c ∈ t, c.isDigit = false := by simpa using hlast
      have hca : ∀ c ∈ t ++ ha, c.isDigit = false := by
        intro c hc
        rcases List.mem_append.mp hc with h | h
        · exact htt c h
        · exact hta c h
      have hcb : ∀ c ∈ t ++ hb, c.isDigit = false := by
        intro c hc
        rcases List.mem_append.mp hc with h | h
        · exact htt c h
        · exact htb c h
      simp only [natKeyL, hSa, hSb, glue, List.map_cons,
        keyElem_text hca, keyElem_text hcb, keyElem_text hta, keyElem_text htb,
        List.map_append]
      rw [cmpKey_cons_str, cmpKey_cons_str, cmpChars_append_left]
    | cons t' ts' =>
      simp only [glue, List.map_cons, cmpKey_cons_same]
      exact ih (by simp) (by simpa [List.getLast?_cons_cons] using hlast) a b

/-- Appending a common text-final prefix to two strings does not change
how their natural sort keys compare. -/
theorem cmpKey_append_str (p a b : List Char) (hp : endsDigit p = false) :
    cmpKey (natKeyL (p ++ a)) (natKeyL (p ++ b)) =
      cmpKey (natKeyL a) (natKeyL b) := by
  rw [natKeyL, natKeyL, splitRuns_append p a (Or.inl hp),
    splitRuns_append p b (Or.inl hp)]
  exact cmpKey_glue_eq (splitRuns p) (splitRuns_ne_nil p)
    (runsShape_getLast (runsShape_splitRuns p)) a b

theorem natLe_append (p a b : String) (hp : endsDigit p.data = false) :
    natLe (p ++ a) (p ++ b) = natLe a b := by
  unfold natLe natural_sort_key
  rw [String.data_append, String.data_append, cmpKey_append_str p.data a.data b.data hp]

theorem pyJoin_eq (dir name : String) (h : strStartsWith name "/" = false) :
    pyJoin dir name = joinPfx dir ++ name := by
  unfold pyJoin joinPfx
  simp only [h, Bool.false_eq_true, if_false]
  split
  · simp
  · split
    · simp
    · rw [String.append_assoc]

theorem endsDigit_joinPfx (dir : String) : endsDigit (joinPfx dir).data = false := by
  unfold joinPfx
  split
  · rfl
  · split
    · have h : strEndsWith dir "/" = true := by assumption
      unfold strEndsWith at h
      rw [beq_iff_eq] at h
      have : (".".data.length : Nat) = 1 := rfl
      rw [endsDigit_last (c := '/') (by simpa using h)]
      rfl
    · rw [String.data_append, endsDigit_append_single]
      rfl

theorem natLe_pyJoin (dir a b : String) (ha : strStartsWith a "/" = false)
    (hb : strStartsWith b "/" = false) :
    natLe (pyJoin dir a) (pyJoin dir b) = natLe a b := by
  rw [pyJoin_eq dir a ha, pyJoin_eq dir b hb,
    natLe_append _ _ _ (endsDigit_joinPfx dir)]

/- ### Stable sort lemmas -/

theorem mem_orderedInsert {le : α → α → Bool} {a x : α} {l : List α} :
    x ∈ orderedInsert le a l ↔ x = a ∨ x ∈ l := by
  induction l with
  | nil => simp [orderedInsert]
  | cons b bs ih =>
    rw [orderedInsert]
    split
    · simp
    · simp only [List.mem_cons, ih]
      tauto

theorem mem_pysorted {le : α → α → Bool} {x : α} {l : List α} :
    x ∈ pysorted le l ↔ x ∈ l := by
  induction l with
  | nil => simp [pysorted]
  | cons a as ih =>
    show x ∈ orderedInsert le a (pysorted le as) ↔ _
    rw [mem_orderedInsert, ih]
    simp

theorem orderedInsert_congr {le₁ le₂ : α → α → Bool} {a : α} {l : List α}
    (h : ∀ y ∈ l, le₁ a y = le₂ a y) :
    orderedInsert le₁ a l = orderedInsert le₂ a l := by
  induction l with
  | nil => rfl
  | cons b bs ih =>
    rw [orderedInsert, orderedInsert, h b (by simp)]
    split
    · rfl
    · rw [ih (fun y hy => h y (by simp [hy]))]

theorem pysorted_congr {le₁ le₂ : α → α → Bool} {l : List α}
    (h : ∀ x ∈ l, ∀ y ∈ l, le₁ x y = le₂ x y) :
    pysorted le₁ l = pysorted le₂ l := by
  induction l with
  | nil => rfl
  | cons a as ih =>
    show orderedInsert le₁ a (pysorted le₁ as) =
      orderedInsert le₂ a (pysorted le₂ as)
    rw [ih (fun x hx y hy => h x (by simp [hx]) y (by simp [hy]))]
    exact orderedInsert_congr (fun y hy =>
      h a (by simp) y (by simp [mem_pysorted.mp hy]))

theorem orderedInsert_map (g : α → β) (le : β → β → Bool) (a : α)
    (l : List α) :
    (orderedInsert (fun x y => le (g x) (g y)) a l).map g =
      orderedInsert le (g a) (l.map g) := by
  induction l with
  | nil => rfl
  | cons b bs ih =>
    rw [orderedInsert, List.map_cons, orderedInsert]
    split
    · rw [List.map_cons, List.map_cons]
    · rw [List.map_cons, ih]

theorem pysorted_map (g : α → β) (le : β → β → Bool) (l : List α) :
    (pysorted (fun x y => le (g x) (g y)) l).map g = pysorted le (l.map g) := by
  induction l with
  | nil => rfl
  | cons a as ih =>
    show (orderedInsert (fun x y => le (g x) (g y)) a
        (pysorted (fun x y => le (g x) (g y)) as)).map g = _
    rw [orderedInsert_map, ih]
    rfl

/- ### Document assembler lemmas -/

theorem processPage_srcName {cp : Bool} {q : Nat} {f : ImageFile} {p : PdfPage}
    (h : processPage cp q f = .ok p) : p.srcName = f.name := by
  unfold processPage at h
  split at h
  · cases cp <;> simp only [if_true, if_false] at h <;>
      cases h <;> rfl
  · cases h

theorem buildPages_names {cp : Bool} {q : Nat} : ∀ {l : List ImageFile}
    {ps : List PdfPage}, buildPages cp q l = .ok ps →
    ps.map PdfPage.srcName = l.map ImageFile.name := by
  intro l
  induction l with
  | nil =>
    intro ps h
    rw [buildPages] at h
    cases h
    rfl
  | cons f fs ih =>
    intro ps h
    rw [buildPages] at h
    rcases hp : processPage cp q f with e | p <;> rw [hp] at h
    · cases h
    · rcases hr : buildPages cp q fs with e | ps' <;> rw [hr] at h
      · cases h
      · cases h
        rw [List.map_cons, List.map_cons, processPage_srcName hp, ih hr]

/- ### Claims C1 - C3 -/

/-- Claim C1: for every chapter folder, the page order of the generated
document equals the natural order of the folder's listing at assemble
time (first page is the naturally smallest filename); in particular a
chapter holding 1.jpg ... 11.jpg comes out in numeric order, with
10.jpg after 2.jpg. -/
theorem claim_C1 (folder : String) (listing : List ImageFile) (q : Nat)
    (cp : Bool) (doc : Doc)
    (hnames : ∀ f ∈ listing, strStartsWith f.name "/" = false)
    (h : create_pdf_from_images folder listing q cp = .ok (some doc)) :
    doc.pages.map PdfPage.srcName = pysorted natLe (listing.map ImageFile.name) ∧
    create_pdf_from_images "/t/ch" demoListing 10 false =
      .ok (some ⟨demoPages, 10⟩) := by
  obtain ⟨dpages, dq⟩ := doc
  refine ⟨?_, by decide⟩
  simp only [create_pdf_from_images] at h
  rcases hb : buildPages cp q
      (pysorted (fun a b =>
        natLe (pyJoin folder a.name) (pyJoin folder b.name)) listing)
    with e | ps <;> rw [hb] at h
  · simp at h
  · cases ps with
    | nil => simp at h
    | cons p ps' =>
      simp only [Except.ok.injEq, Option.some.injEq, Doc.mk.injEq] at h
      obtain ⟨hpp, hqq⟩ := h
      subst hpp
      show (p :: ps').map PdfPage.srcName = _
      rw [buildPages_names hb]
      have hcongr : pysorted (fun a b : ImageFile =>
          natLe (pyJoin folder a.name) (pyJoin folder b.name)) listing =
          pysorted (fun a b : ImageFile => natLe a.name b.name) listing :=
        pysorted_congr (fun x hx y hy =>
          natLe_pyJoin folder x.name y.name (hnames x hx) (hnames y hy))
      rw [hcongr]
      exact pysorted_map ImageFile.name natLe listing

/-- Claim C2: the natural sort key compares digit runs as integers and
text runs as lowercased text, so two filenames that differ only in the
value of one digit run order by integer magnitude regardless of digit
count; digit-free filenames compare as lowercase text; and page2.jpg
sorts before page10.jpg. -/
theorem claim_C2 (pre d1 d2 suf : List Char) (s t : String)
    (hpre : endsDigit pre = false)
    (hd1 : d1 ≠ []) (hd1d : ∀ c ∈ d1, c.isDigit = true)
    (hd2 : d2 ≠ []) (hd2d : ∀ c ∈ d2, c.isDigit = true)
    (hsuf : startsDigit suf = false)
    (hlt : digitsToNat d1 < digitsToNat d2)
    (hs : ∀ c ∈ s.data, c.isDigit = false)
    (ht : ∀ c ∈ t.data, c.isDigit = false) :
    cmpKey (natural_sort_key ⟨pre ++ d1 ++ suf⟩)
        (natural_sort_key ⟨pre ++ d2 ++ suf⟩) = some .lt ∧
    cmpKey (natural_sort_key s) (natural_sort_key t) =
      some (cmpChars (s.data.map Char.toLower) (t.data.map Char.toLower)) ∧
    cmpKey (natural_sort_key "page2.jpg") (natural_sort_key "page10.jpg") =
      some .lt := by
  refine ⟨?_, ?_, by decide⟩
  · show cmpKey (natKeyL (pre ++ d1 ++ suf)) (natKeyL (pre ++ d2 ++ suf)) = _
    rw [natKeyL_decomp hpre hd1 hd1d hsuf, natKeyL_decomp hpre hd2 hd2d hsuf,
      cmpKey_append_left]
    exact cmpKey_num_lt_of_lt _ _ (cmpNat_lt_iff.mpr hlt)
  · show cmpKey (natKeyL s.data) (natKeyL t.data) = _
    rw [natKeyL, natKeyL, splitRuns_nodigits hs, splitRuns_nodigits ht,
      List.map_singleton, List.map_singleton, keyElem_text hs, keyElem_text ht,
      cmpKey_single_str]

/-- Claim C3: key comparison is total (never matches an integer element
against a text element), reflexively consistent, antisymmetric under
swapping, and transitive on strict comparisons: a strict weak ordering
on all filenames. -/
theorem claim_C3 (v w s t u : String)
    (h1 : cmpKey (natural_sort_key s) (natural_sort_key t) = some .lt)
    (h2 : cmpKey (natural_sort_key t) (natural_sort_key u) = some .lt) :
    (cmpKey (natural_sort_key v) (natural_sort_key w)).isSome = true ∧
    cmpKey (natural_sort_key v) (natural_sort_key v) = some .eq ∧
    cmpKey (natural_sort_key w) (natural_sort_key v) =
      (cmpKey (natural_sort_key v) (natural_sort_key w)).map Ordering.swap ∧
    cmpKey (natural_sort_key s) (natural_sort_key u) = some .lt :=
  ⟨cmpKey_isSome (kshape_key v) (kshape_key w),
   cmpKey_refl _,
   cmpKey_swap _ _,
   cmpKey_trans_lt (kshape_key s) (kshape_key t) (kshape_key u) h1 h2⟩

/-- Witness for C1 at a concrete chapter listing. -/
theorem claim_C1_witness :
    demoPages.map PdfPage.srcName = pysorted natLe (demoListing.map ImageFile.name) ∧
    create_pdf_from_images "/t/ch" demoListing 10 false =
      .ok (some ⟨demoPages, 10⟩) :=
  claim_C1 "/t/ch" demoListing 10 false ⟨demoPages, 10⟩ (by decide) (by decide)

/-- Witness for C2 at p2 versus p10 and ab versus aC. -/
theorem claim_C2_witness :
    cmpKey (natural_sort_key ⟨"p".data ++ "2".data ++ ".jpg".data⟩)
        (natural_sort_key ⟨"p".data ++ "10".data ++ ".jpg".data⟩) = some .lt ∧
    cmpKey (natural_sort_key "ab") (natural_sort_key "aC") =
      some (cmpChars ("ab".data.map Char.toLower) ("aC".data.map Char.toLower)) ∧
    cmpKey (natural_sort_key "page2.jpg") (natural_sort_key "page10.jpg") =
      some .lt :=
  claim_C2 "p".data "2".data "10".data ".jpg".data "ab" "aC"
    (by decide) (by decide) (by decide) (by decide) (by decide) (by decide)
    (by decide) (by decide) (by decide)

/-- Witness for C3 at a2 before a10 before b. -/
theorem claim_C3_witness :
    (cmpKey (natural_sort_key "x1") (natural_sort_key "X2")).isSome = true ∧
    cmpKey (natural_sort_key "x1") (natural_sort_key "x1") = some .eq ∧
    cmpKey (natural_sort_key "X2") (natural_sort_key "x1") =
      (cmpKey (natural_sort_key "x1") (natural_sort_key "X2")).map Ordering.swap ∧
    cmpKey (natural_sort_key "a2") (natural_sort_key "b") = some .lt :=
  claim_C3 "x1" "X2" "a2" "a10" "b" (by decide) (by decide)

/- ### Claims C4 and C6 -/

theorem take_length_sub_two (l : List α) :
    l.take (l.length - 2) = l.dropLast.dropLast := by
  simp only [List.dropLast_eq_take, List.take_take, List.length_take]
  congr 1
  omega

/-- Claim C4: the series name is the archive filename minus extension,
split on underscores, trailing two tokens removed, joined with
hyphens; foo-bar_c001_c010.zip gives series foo-bar and chapter c003
lands at out/foo-bar/foo-bar_c003.pdf; a name with at most two tokens
degenerates to the empty series name instead of being rejected. -/
theorem claim_C4 (n1 n2 : String)
    (h2 : (splitOnChar '_' (chapterName n1).data).length ≤ 2) :
    seriesName n1 = "" ∧
    seriesName n2 = ⟨intercalateChars ['-']
      ((splitOnChar '_' (chapterName n2).data).dropLast.dropLast)⟩ ∧
    seriesName "foo-bar_c001_c010.zip" = "foo-bar" ∧
    pyJoin (pdfFolder "out" (seriesName "foo-bar_c001_c010.zip"))
      (mangaPdfName (seriesName "foo-bar_c001_c010.zip") "c003") =
      "out/foo-bar/foo-bar_c003.pdf" := by
  refine ⟨?_, ?_, by decide, by decide⟩
  · simp only [seriesName]
    rw [Nat.sub_eq_zero_of_le h2, List.take_zero]
    rfl
  · simp only [seriesName]
    rw [take_length_sub_two]

/-- Witness for C4 at a single-token name and the example name. -/
theorem claim_C4_witness :
    seriesName "one.zip" = "" ∧
    seriesName "foo-bar_c001_c010.zip" = ⟨intercalateChars ['-']
      ((splitOnChar '_' (chapterName "foo-bar_c001_c010.zip").data).dropLast.dropLast)⟩ ∧
    seriesName "foo-bar_c001_c010.zip" = "foo-bar" ∧
    pyJoin (pdfFolder "out" (seriesName "foo-bar_c001_c010.zip"))
      (mangaPdfName (seriesName "foo-bar_c001_c010.zip") "c003") =
      "out/foo-bar/foo-bar_c003.pdf" :=
  claim_C4 "one.zip" "foo-bar_c001_c010.zip" (by decide)

theorem processPage_ok {cp : Bool} {q : Nat} {f : ImageFile}
    (h : f.ok = true) : ∃ p, processPage cp q f = .ok p := by
  unfold processPage
  rw [if_pos h]
  exact ⟨_, rfl⟩

theorem buildPages_total {cp : Bool} {q : Nat} : ∀ {l : List ImageFile},
    (∀ f ∈ l, f.ok = true) →
    ∃ ps, buildPages cp q l = .ok ps ∧ (ps = [] ↔ l = []) := by
  intro l
  induction l with
  | nil => intro _; exact ⟨[], rfl, by simp⟩
  | cons f fs ih =>
    intro h
    obtain ⟨p, hp⟩ := @processPage_ok cp q f (h f (by simp))
    obtain ⟨ps, hps, _⟩ := ih (fun g hg => h g (by simp [hg]))
    refine ⟨p :: ps, ?_, by simp⟩
    rw [buildPages, hp, hps]

theorem length_orderedInsert (le : α → α → Bool) (a : α) (l : List α) :
    (orderedInsert le a l).length = l.length + 1 := by
  induction l with
  | nil => rfl
  | cons b bs ih =>
    rw [orderedInsert]
    split
    · rfl
    · simp [ih]

theorem length_pysorted (le : α → α → Bool) (l : List α) :
    (pysorted le l).length = l.length := by
  induction l with
  | nil => rfl
  | cons a as ih =>
    show (orderedInsert le a (pysorted le as)).length = _
    rw [length_orderedInsert, ih]
    rfl

theorem pysorted_eq_nil_iff {le : α → α → Bool} {l : List α} :
    pysorted le l = [] ↔ l = [] := by
  rw [← List.length_eq_zero, length_pysorted, List.length_eq_zero]

/-- Claim C6: with every listed image readable, assembly never errors,
and it writes no file exactly when the folder listing is empty;
otherwise it produces exactly one document. -/
theorem claim_C6 (folder : String) (q : Nat) (cp : Bool)
    (listing : List ImageFile) (hok : ∀ f ∈ listing, f.ok = true) :
    (create_pdf_from_images folder listing q cp).isOk = true ∧
    (create_pdf_from_images folder listing q cp = .ok none ↔ listing = []) := by
  have hoks : ∀ f ∈ pysorted (fun a b =>
      natLe (pyJoin folder a.name) (pyJoin folder b.name)) listing, f.ok = true :=
    fun f hf => hok f (mem_pysorted.mp hf)
  obtain ⟨ps, hps, hiff⟩ := @buildPages_total cp q _ hoks
  have hsn : (pysorted (fun a b =>
      natLe (pyJoin folder a.name) (pyJoin folder b.name)) listing) = [] ↔
      listing = [] := pysorted_eq_nil_iff
  simp only [create_pdf_from_images, hps]
  cases ps with
  | nil =>
    constructor
    · rfl
    · simp only [true_iff]
      exact hsn.mp (hiff.mp rfl)
  | cons p ps' =>
    constructor
    · rfl
    · simp only [iff_iff_implies_and_implies]
      constructor
      · intro hcontra
        cases hcontra
      · intro hnil
        have : p :: ps' = [] := hiff.mpr (hsn.mpr hnil)
        cases this

/-- Witness for C6 at a two-page readable chapter. -/
theorem claim_C6_witness :
    (create_pdf_from_images "/t/c1"
      [⟨"2.jpg", "RGB", true⟩, ⟨"10.jpg", "P", true⟩] 10 false).isOk = true ∧
    (create_pdf_from_images "/t/c1"
        [⟨"2.jpg", "RGB", true⟩, ⟨"10.jpg", "P", true⟩] 10 false = .ok none ↔
      [(⟨"2.jpg", "RGB", true⟩ : ImageFile), ⟨"10.jpg", "P", true⟩] = []) :=
  claim_C6 "/t/c1" 10 false [⟨"2.jpg", "RGB", true⟩, ⟨"10.jpg", "P", true⟩]
    (by decide)

/- ### Archive processor lemmas -/

theorem processArchives_no_zip {cfg : Config} {out : String} :
    ∀ {l : List ZEntry} {fs : OutFS} {n : Nat},
    (∀ z ∈ l, strEndsWith z.name ".zip" = false) →
    processArchives cfg out l fs n = (fs, .ok n) := by
  intro l
  induction l with
  | nil => intro fs n _; rfl
  | cons e rest ih =>
    intro fs n h
    rw [processArchives, if_neg (by rw [h e (by simp)]; simp)]
    exact ih (fun z hz => h z (by simp [hz]))

theorem processArchives_count {cfg : Config} {out : String} :
    ∀ {l : List ZEntry} {fs : OutFS} {n : Nat} {fs' : OutFS} {m : Nat},
    processArchives cfg out l fs n = (fs', .ok m) →
    m = n + (l.filter (fun z => strEndsWith z.name ".zip")).length := by
  intro l
  induction l with
  | nil =>
    intro fs n fs' m h
    simp only [processArchives, Prod.mk.injEq, Except.ok.injEq] at h
    simp [← h.2]
  | cons e rest ih =>
    intro fs n fs' m h
    rw [processArchives] at h
    by_cases hz : strEndsWith e.name ".zip" = true
    · rw [if_pos hz] at h
      rcases hA : processArchive cfg out e fs with ⟨fs1, r⟩
      rw [hA] at h
      cases r with
      | error err => simp at h
      | ok k =>
        have hm := ih h
        simp only [List.filter_cons, hz, if_true, List.length_cons]
        omega
    · rw [if_neg hz] at h
      have hm := ih h
      have hz' : strEndsWith e.name ".zip" = false := by
        revert hz; cases strEndsWith e.name ".zip" <;> simp
      simp only [List.filter_cons, hz', Bool.false_eq_true, if_false]
      exact hm

theorem processChapters_dirs {cfg : Config} {series pf : String} :
    ∀ {chs : List ChapterDir} {fs : OutFS} {cnt : Nat},
    ((processChapters cfg series pf chs fs cnt).1).dirs = fs.dirs := by
  intro chs
  induction chs with
  | nil => intro fs cnt; rfl
  | cons ch rest ih =>
    intro fs cnt
    simp only [processChapters]
    split
    · exact ih
    · rcases hC : create_pdf_from_images (pyJoin tmpRoot ch.name) ch.pages
          cfg.quality cfg.compress with e | od
      · rfl
      · cases od with
        | none => exact ih
        | some d => exact ih

theorem mkdirP_mem (fs : OutFS) (dir : String) : dir ∈ (mkdirP fs dir).dirs := by
  unfold mkdirP
  split
  · assumption
  · simp

theorem mkdirP_of_mem {fs : OutFS} {dir : String} (h : dir ∈ fs.dirs) :
    mkdirP fs dir = fs := by
  unfold mkdirP
  rw [if_pos h]

theorem processArchive_bad {cfg : Config} {out : String} {e : ZEntry}
    {fs : OutFS} (hm : e.contents = none) :
    processArchive cfg out e fs =
      (mkdirP fs (pdfFolder out (seriesName e.name)), .error (.badArchive e.name)) := by
  simp [processArchive, hm]

theorem processArchives_bad {cfg : Config} {out : String} :
    ∀ {l : List ZEntry} {fs : OutFS} {n : Nat} {e : ZEntry}, e ∈ l →
    strEndsWith e.name ".zip" = true → e.contents = none →
    ((processArchives cfg out l fs n).2).isOk = false := by
  intro l
  induction l with
  | nil => intro fs n e he; simp at he
  | cons a rest ih =>
    intro fs n e he hz hm
    rw [processArchives]
    by_cases haz : strEndsWith a.name ".zip" = true
    · rw [if_pos haz]
      rcases hA : processArchive cfg out a fs with ⟨fs1, r⟩
      cases r with
      | error err => rfl
      | ok k =>
        rcases List.mem_cons.mp he with rfl | he'
        · rw [processArchive_bad hm] at hA
          simp at hA
        · exact ih he' hz hm
    · rw [if_neg haz]
      rcases List.mem_cons.mp he with rfl | he'
      · exact absurd hz haz
      · exact ih he' hz hm

theorem generate_bad {cfg : Config} {listing : List ZEntry} {out : String}
    {fs : OutFS} {e : ZEntry} (he : e ∈ listing)
    (hz : strEndsWith e.name ".zip" = true) (hm : e.contents = none) :
    ((generate_manga cfg listing out fs).2).isOk = false := by
  unfold generate_manga
  rcases hP : processArchives cfg out listing fs 0 with ⟨fs1, r⟩
  have hbad := @processArchives_bad cfg out listing fs 0 e he hz hm
  rw [hP] at hbad
  cases r with
  | error err => rfl
  | ok n => simp [Except.isOk, Except.toBool] at hbad

theorem buildPages_bad {cp : Bool} {q : Nat} : ∀ {l : List ImageFile}
    {f : ImageFile}, f ∈ l → f.ok = false →
    (buildPages cp q l).isOk = false := by
  intro l
  induction l with
  | nil => intro f hf; simp at hf
  | cons g gs ih =>
    intro f hf hbad
    rw [buildPages]
    rcases hpg : processPage cp q g with e | p
    · rfl
    · rcases List.mem_cons.mp hf with rfl | hf'
      · unfold processPage at hpg
        rw [if_neg (by rw [hbad]; simp)] at hpg
        cases hpg
      · have hrec := ih hf' hbad
        rcases hbr : buildPages cp q gs with e2 | ps
        · rfl
        · rw [hbr] at hrec
          simp [Except.isOk, Except.toBool] at hrec

theorem create_pdf_bad {folder : String} {q : Nat} {cp : Bool}
    {pages : List ImageFile} {f : ImageFile} (hf : f ∈ pages)
    (hbad : f.ok = false) :
    (create_pdf_from_images folder pages q cp).isOk = false := by
  simp only [create_pdf_from_images]
  have hmem : f ∈ pysorted (fun a b =>
      natLe (pyJoin folder a.name) (pyJoin folder b.name)) pages :=
    mem_pysorted.mpr hf
  have hrec := @buildPages_bad cp q _ f hmem hbad
  rcases hb : buildPages cp q (pysorted (fun a b =>
      natLe (pyJoin folder a.name) (pyJoin folder b.name)) pages) with e | ps
  · rfl
  · rw [hb] at hrec
    simp [Except.isOk, Except.toBool] at hrec

/- ### Claims C7 - C10 -/

/-- Claim C7: failures are never caught inside the pipeline: a
recognized archive that cannot be opened makes the whole run end in an
error, and a chapter page that cannot be decoded makes document
assembly end in an error; neither is skipped. -/
theorem claim_C7 (cfg : Config) (listing : List ZEntry) (out : String)
    (fs : OutFS) (e : ZEntry) (he : e ∈ listing)
    (hz : strEndsWith e.name ".zip" = true) (hm : e.contents = none)
    (folder : String) (q : Nat) (cp : Bool) (pages : List ImageFile)
    (f : ImageFile) (hf : f ∈ pages) (hbad : f.ok = false) :
    ((generate_manga cfg listing out fs).2).isOk = false ∧
    (create_pdf_from_images folder pages q cp).isOk = false :=
  ⟨generate_bad he hz hm, create_pdf_bad hf hbad⟩

/-- Witness for C7 at a malformed archive and an undecodable page. -/
theorem claim_C7_witness :
    ((generate_manga ⟨false, false, 10⟩ [⟨"bad_a_b.zip", none⟩] "o"
      ⟨[], []⟩).2).isOk = false ∧
    (create_pdf_from_images "/t/c1" [⟨"1.jpg", "RGB", false⟩] 10 false).isOk =
      false :=
  claim_C7 ⟨false, false, 10⟩ [⟨"bad_a_b.zip", none⟩] "o" ⟨[], []⟩
    ⟨"bad_a_b.zip", none⟩ (by decide) (by decide) (by decide)
    "/t/c1" 10 false [⟨"1.jpg", "RGB", false⟩] ⟨"1.jpg", "RGB", false⟩
    (by decide) (by decide)

/-- Claim C8: a run that finds no recognized archive reports the
distinct no-work outcome, leaves the filesystem alone and returns the
success status 0. -/
theorem claim_C8 (cfg : Config) (listing : List ZEntry) (out : String)
    (fs : OutFS) (h : ∀ z ∈ listing, strEndsWith z.name ".zip" = false) :
    generate_manga cfg listing out fs = (fs, .ok (0, .noWork)) := by
  unfold generate_manga
  rw [processArchives_no_zip h]
  rfl

/-- Witness for C8 on a directory holding only non-zip entries. -/
theorem claim_C8_witness :
    generate_manga ⟨false, false, 10⟩ [⟨"X.ZIP", some []⟩, ⟨"notes.txt", some []⟩]
      "o" ⟨[], []⟩ = (⟨[], []⟩, .ok (0, .noWork)) :=
  claim_C8 ⟨false, false, 10⟩ [⟨"X.ZIP", some []⟩, ⟨"notes.txt", some []⟩]
    "o" ⟨[], []⟩ (by decide)

/-- Claim C9: the per-series output directory is created before the
archive is opened, so a malformed archive still leaves the directory
behind (with the run aborting), and after any archive's processing the
directory exists — the error path is not atomic on the output tree. -/
theorem claim_C9 (cfg : Config) (out : String) (e e2 : ZEntry) (fs : OutFS)
    (hm : e.contents = none) :
    processArchive cfg out e fs =
      (mkdirP fs (pdfFolder out (seriesName e.name)),
        .error (.badArchive e.name)) ∧
    pdfFolder out (seriesName e2.name) ∈ (processArchive cfg out e2 fs).1.dirs ∧
    generate_manga ⟨false, false, 10⟩ [⟨"bad_a_b.zip", none⟩] "o" ⟨[], []⟩ =
      (⟨["o/bad"], []⟩, .error (.badArchive "bad_a_b.zip")) := by
  refine ⟨processArchive_bad hm, ?_, by decide⟩
  rcases hc : e2.contents with _ | chs
  · simp only [processArchive, hc]
    exact mkdirP_mem fs _
  · simp only [processArchive, hc]
    rw [processChapters_dirs]
    exact mkdirP_mem fs _

/-- Witness for C9 at a malformed archive entry. -/
theorem claim_C9_witness :
    processArchive ⟨false, false, 10⟩ "o" ⟨"bad_a_b.zip", none⟩ ⟨[], []⟩ =
      (mkdirP ⟨[], []⟩ (pdfFolder "o" (seriesName "bad_a_b.zip")),
        .error (.badArchive "bad_a_b.zip")) ∧
    pdfFolder "o" (seriesName "s_a_b.zip") ∈
      (processArchive ⟨false, false, 10⟩ "o" ⟨"s_a_b.zip", some []⟩
        ⟨[], []⟩).1.dirs ∧
    generate_manga ⟨false, false, 10⟩ [⟨"bad_a_b.zip", none⟩] "o" ⟨[], []⟩ =
      (⟨["o/bad"], []⟩, .error (.badArchive "bad_a_b.zip")) :=
  claim_C9 ⟨false, false, 10⟩ "o" ⟨"bad_a_b.zip", none⟩ ⟨"s_a_b.zip", some []⟩
    ⟨[], []⟩ (by decide)

/-- Claim C10: recognition is the exact case-sensitive suffix test
".zip": a successful run counts exactly the entries whose names end in
".zip", and entries such as X.ZIP or X.cbz are silently ignored,
leaving the state untouched and the count at zero. -/
theorem claim_C10 (cfg : Config) (listing : List ZEntry) (out : String)
    (fs fs' : OutFS) (r : Nat) (ev : FinalEvent)
    (h : generate_manga cfg listing out fs = (fs', .ok (r, ev))) :
    ev = (if (listing.filter (fun z => strEndsWith z.name ".zip")).length = 0
      then FinalEvent.noWork
      else .processed
        (listing.filter (fun z => strEndsWith z.name ".zip")).length) ∧
    strEndsWith "X.ZIP" ".zip" = false ∧
    strEndsWith "X.cbz" ".zip" = false ∧
    generate_manga ⟨false, false, 10⟩
        [⟨"X.ZIP", some [⟨"c1", []⟩]⟩, ⟨"X.cbz", some [⟨"c1", []⟩]⟩] "o"
        ⟨[], []⟩ =
      (⟨[], []⟩, .ok (0, .noWork)) := by
  refine ⟨?_, by decide, by decide, by decide⟩
  unfold generate_manga at h
  rcases hP : processArchives cfg out listing fs 0 with ⟨fs1, rr⟩
  rw [hP] at h
  cases rr with
  | error err => simp at h
  | ok n =>
    have hn := processArchives_count hP
    simp only [Prod.mk.injEq, Except.ok.injEq] at h
    rw [← h.2.2, hn, Nat.zero_add]

/-- Witness for C10 at a run over one zip and one ignored entry. -/
theorem claim_C10_witness :
    FinalEvent.processed 1 =
      (if ([(⟨"s_a_b.zip", some []⟩ : ZEntry), ⟨"X.cbz", some []⟩].filter
          (fun z => strEndsWith z.name ".zip")).length = 0
        then FinalEvent.noWork
        else .processed
          ([(⟨"s_a_b.zip", some []⟩ : ZEntry), ⟨"X.cbz", some []⟩].filter
            (fun z => strEndsWith z.name ".zip")).length) ∧
    strEndsWith "X.ZIP" ".zip" = false ∧
    strEndsWith "X.cbz" ".zip" = false ∧
    generate_manga ⟨false, false, 10⟩
        [⟨"X.ZIP", some [⟨"c1", []⟩]⟩, ⟨"X.cbz", some [⟨"c1", []⟩]⟩] "o"
        ⟨[], []⟩ =
      (⟨[], []⟩, .ok (0, .noWork)) :=
  claim_C10 ⟨false, false, 10⟩ [⟨"s_a_b.zip", some []⟩, ⟨"X.cbz", some []⟩]
    "o" ⟨[], []⟩ ⟨["o/s"], []⟩ 0 (.processed 1) (by decide)

/- ### Idempotence of the archive processor (claim C5) -/

theorem fsLE_refl (fs : OutFS) : fsLE fs fs :=
  ⟨fun _ h => h, fun _ h => h⟩

theorem fsLE_trans {a b c : OutFS} (h1 : fsLE a b) (h2 : fsLE b c) :
    fsLE a c :=
  ⟨fun d hd => h2.1 d (h1.1 d hd), fun f hf => h2.2 f (h1.2 f hf)⟩

theorem listdir_mono {fs g : OutFS} (h : fsLE fs g) {dir x : String}
    (hx : x ∈ listdirNames fs dir) : x ∈ listdirNames g dir := by
  unfold listdirNames at *
  rcases List.mem_map.mp hx with ⟨f, hf, rfl⟩
  have hf' := List.mem_filter.mp hf
  exact List.mem_map.mpr ⟨f, List.mem_filter.mpr ⟨h.2 f hf'.1, hf'.2⟩, rfl⟩

theorem writeFile_not_present {fs : OutFS} {dir name : String} {d : Doc}
    (h : name ∉ listdirNames fs dir) :
    writeFile fs dir name d = ⟨fs.dirs, fs.files ++ [(dir, name, d)]⟩ := by
  have hall : ∀ f ∈ fs.files,
      (!(decide (f.1 = dir) && decide (f.2.1 = name))) = true := by
    intro f hf
    by_cases h1 : f.1 = dir
    · by_cases h2 : f.2.1 = name
      · exfalso
        apply h
        unfold listdirNames
        exact List.mem_map.mpr
          ⟨f, List.mem_filter.mpr ⟨hf, by simp [h1]⟩, h2⟩
      · simp [h2]
    · simp [h1]
  unfold writeFile
  rw [List.filter_eq_self.mpr hall]

theorem fsLE_writeFile {fs : OutFS} {dir name : String} {d : Doc}
    (h : name ∉ listdirNames fs dir) :
    fsLE fs (writeFile fs dir name d) := by
  rw [writeFile_not_present h]
  exact ⟨fun x hx => hx, fun f hf => by simp [hf]⟩

theorem mem_listdir_writeFile (fs : OutFS) (dir name : String) (d : Doc) :
    name ∈ listdirNames (writeFile fs dir name d) dir := by
  unfold listdirNames writeFile
  exact List.mem_map.mpr
    ⟨(dir, name, d), List.mem_filter.mpr ⟨by simp, by simp⟩, rfl⟩

theorem fsLE_mkdirP (fs : OutFS) (dir : String) : fsLE fs (mkdirP fs dir) := by
  unfold mkdirP
  split
  · exact fsLE_refl fs
  · exact ⟨fun x hx => by simp [hx], fun f hf => hf⟩

theorem processChapters_mono {cfg : Config} {series pf : String}
    (hforce : cfg.force = false) : ∀ {chs : List ChapterDir} {fs fs' : OutFS}
    {cnt m : Nat}, processChapters cfg series pf chs fs cnt = (fs', .ok m) →
    fsLE fs fs' := by
  intro chs
  induction chs with
  | nil =>
    intro fs fs' cnt m h
    simp only [processChapters, Prod.mk.injEq] at h
    rw [← h.1]
    exact fsLE_refl fs
  | cons ch rest ih =>
    intro fs fs' cnt m h
    simp only [processChapters] at h
    split at h
    · exact ih h
    · rename_i hcond
      rcases hC : create_pdf_from_images (pyJoin tmpRoot ch.name) ch.pages
          cfg.quality cfg.compress with e | od <;> rw [hC] at h
      · simp at h
      · cases od with
        | none => exact ih h
        | some d =>
          have hnotin : mangaPdfName series ch.name ∉ listdirNames fs pf :=
            fun hin => hcond ⟨hin, hforce⟩
          exact fsLE_trans (fsLE_writeFile hnotin) (ih h)

theorem processChapters_rerun {cfg : Config} {series pf : String}
    (hforce : cfg.force = false) : ∀ {chs : List ChapterDir} {fs fs' : OutFS}
    {cnt m : Nat}, processChapters cfg series pf chs fs cnt = (fs', .ok m) →
    ∀ {g : OutFS} (cnt' : Nat), fsLE fs' g →
    ∃ m', processChapters cfg series pf chs g cnt' = (g, .ok m') := by
  intro chs
  induction chs with
  | nil =>
    intro fs fs' cnt m _ g cnt' _
    exact ⟨cnt', rfl⟩
  | cons ch rest ih =>
    intro fs fs' cnt m h g cnt' hg
    simp only [processChapters] at h
    split at h
    · rename_i hcond
      have hmono : fsLE fs fs' := processChapters_mono hforce h
      have hin : mangaPdfName series ch.name ∈ listdirNames g pf :=
        listdir_mono (fsLE_trans hmono hg) hcond.1
      obtain ⟨m', hm'⟩ := ih h cnt' hg
      refine ⟨m', ?_⟩
      simp only [processChapters]
      rw [if_pos ⟨hin, hforce⟩]
      exact hm'
    · rcases hC : create_pdf_from_images (pyJoin tmpRoot ch.name) ch.pages
          cfg.quality cfg.compress with e | od <;> rw [hC] at h
      · simp at h
      · cases od with
        | none =>
          by_cases hin : mangaPdfName series ch.name ∈ listdirNames g pf
          · obtain ⟨m', hm'⟩ := ih h cnt' hg
            refine ⟨m', ?_⟩
            simp only [processChapters]
            rw [if_pos ⟨hin, hforce⟩]
            exact hm'
          · obtain ⟨m', hm'⟩ := ih h (cnt' + 1) hg
            refine ⟨m', ?_⟩
            simp only [processChapters]
            rw [if_neg (fun hcc => hin hcc.1), hC]
            exact hm'
        | some d =>
          have hwrote :=
            mem_listdir_writeFile fs pf (mangaPdfName series ch.name) d
          have hmono : fsLE (writeFile fs pf (mangaPdfName series ch.name) d)
              fs' := processChapters_mono hforce h
          have hin : mangaPdfName series ch.name ∈ listdirNames g pf :=
            listdir_mono (fsLE_trans hmono hg) hwrote
          obtain ⟨m', hm'⟩ := ih h cnt' hg
          refine ⟨m', ?_⟩
          simp only [processChapters]
          rw [if_pos ⟨hin, hforce⟩]
          exact hm'

theorem processArchive_mono {cfg : Config} {out : String}
    (hforce : cfg.force = false) {e : ZEntry} {fs fs' : OutFS} {m : Nat}
    (h : processArchive cfg out e fs = (fs', .ok m)) : fsLE fs fs' := by
  simp only [processArchive] at h
  rcases hc : e.contents with _ | chs <;> rw [hc] at h
  · simp at h
  · exact fsLE_trans (fsLE_mkdirP fs _) (processChapters_mono hforce h)

theorem processArchive_rerun {cfg : Config} {out : String}
    (hforce : cfg.force = false) {e : ZEntry} {fs fs' : OutFS} {m : Nat}
    (h : processArchive cfg out e fs = (fs', .ok m)) :
    ∀ {g : OutFS}, fsLE fs' g →
    ∃ m', processArchive cfg out e g = (g, .ok m') := by
  intro g hg
  simp only [processArchive] at h ⊢
  rcases hc : e.contents with _ | chs <;> rw [hc] at h
  · simp at h
  · have hdir : pdfFolder out (seriesName e.name) ∈ g.dirs := by
      have h1 : pdfFolder out (seriesName e.name) ∈
          (mkdirP fs (pdfFolder out (seriesName e.name))).dirs :=
        mkdirP_mem fs _
      have h2 := processChapters_mono hforce h
      exact hg.1 _ (h2.1 _ h1)
    obtain ⟨m', hm'⟩ := processChapters_rerun hforce h 0 hg
    refine ⟨m', ?_⟩
    rw [mkdirP_of_mem hdir]
    exact hm'

theorem processArchives_mono {cfg : Config} {out : String}
    (hforce : cfg.force = false) : ∀ {l : List ZEntry} {fs : OutFS} {n : Nat}
    {fs' : OutFS} {m : Nat},
    processArchives cfg out l fs n = (fs', .ok m) → fsLE fs fs' := by
  intro l
  induction l with
  | nil =>
    intro fs n fs' m h
    simp only [processArchives, Prod.mk.injEq] at h
    rw [← h.1]
    exact fsLE_refl fs
  | cons a rest ih =>
    intro fs n fs' m h
    rw [processArchives] at h
    split at h
    · rcases hA : processArchive cfg out a fs with ⟨fs1, r⟩
      rw [hA] at h
      cases r with
      | error err => simp at h
      | ok k => exact fsLE_trans (processArchive_mono hforce hA) (ih h)
    · exact ih h

theorem processArchives_rerun {cfg : Config} {out : String}
    (hforce : cfg.force = false) : ∀ {l : List ZEntry} {fs : OutFS} {n : Nat}
    {fs' : OutFS} {m : Nat},
    processArchives cfg out l fs n = (fs', .ok m) →
    ∀ {g : OutFS} (n' : Nat), fsLE fs' g →
    ∃ m', processArchives cfg out l g n' = (g, .ok m') := by
  intro l
  induction l with
  | nil =>
    intro fs n fs' m _ g n' _
    exact ⟨n', rfl⟩
  | cons a rest ih =>
    intro fs n fs' m h g n' hg
    rw [processArchives] at h
    split at h
    · rename_i hz
      rcases hA : processArchive cfg out a fs with ⟨fs1, r⟩
      rw [hA] at h
      cases r with
      | error err => simp at h
      | ok k =>
        have hm1 : fsLE fs1 fs' := processArchives_mono hforce h
        obtain ⟨ma, hma⟩ :=
          processArchive_rerun hforce hA (fsLE_trans hm1 hg)
        obtain ⟨m', hm'⟩ := ih h (n' + 1) hg
        refine ⟨m', ?_⟩
        rw [processArchives, if_pos hz, hma]
        exact hm'
    · rename_i hz
      obtain ⟨m', hm'⟩ := ih h n' hg
      refine ⟨m', ?_⟩
      rw [processArchives, if_neg hz]
      exact hm'

/-- Claim C5: with force off, a successful run is idempotent: running
the processor again over the same input against the filesystem the
first run produced succeeds, writes nothing new and modifies nothing,
because every chapter whose document exists is skipped outright. -/
theorem claim_C5 (cfg : Config) (listing : List ZEntry) (out : String)
    (fs0 fs1 : OutFS) (v : Nat × FinalEvent) (hforce : cfg.force = false)
    (h : generate_manga cfg listing out fs0 = (fs1, .ok v)) :
    (generate_manga cfg listing out fs1).1 = fs1 ∧
    ((generate_manga cfg listing out fs1).2).isOk = true := by
  unfold generate_manga at h
  rcases hP : processArchives cfg out listing fs0 0 with ⟨fsa, r⟩
  rw [hP] at h
  cases r with
  | error e => simp at h
  | ok n =>
    simp only [Prod.mk.injEq] at h
    have hfs : fsa = fs1 := h.1
    subst hfs
    obtain ⟨m', hm'⟩ := processArchives_rerun hforce hP 0 (fsLE_refl fsa)
    unfold generate_manga
    rw [hm']
    exact ⟨rfl, rfl⟩

/-- Witness for C5 at a one-archive, one-chapter, one-page run. -/
theorem claim_C5_witness :
    (generate_manga ⟨false, false, 10⟩
      [⟨"s_a_b.zip", some [⟨"c1", [⟨"001.jpg", "RGB", true⟩]⟩]⟩] "o"
      ⟨["o/s"], [("o/s", "s_c1.pdf", ⟨[⟨"001.jpg", "RGB", none⟩], 10⟩)]⟩).1 =
      ⟨["o/s"], [("o/s", "s_c1.pdf", ⟨[⟨"001.jpg", "RGB", none⟩], 10⟩)]⟩ ∧
    ((generate_manga ⟨false, false, 10⟩
      [⟨"s_a_b.zip", some [⟨"c1", [⟨"001.jpg", "RGB", true⟩]⟩]⟩] "o"
      ⟨["o/s"], [("o/s", "s_c1.pdf", ⟨[⟨"001.jpg", "RGB", none⟩], 10⟩)]⟩).2).isOk =
      true :=
  claim_C5 ⟨false, false, 10⟩
    [⟨"s_a_b.zip", some [⟨"c1", [⟨"001.jpg", "RGB", true⟩]⟩]⟩] "o"
    ⟨[], []⟩
    ⟨["o/s"], [("o/s", "s_c1.pdf", ⟨[⟨"001.jpg", "RGB", none⟩], 10⟩)]⟩
    (0, .processed 1) (by decide) (by decide)

example : natural_sort_key "page2.jpg" =
    [.str "page".data, .num 2, .str ".jpg".data] := by decide

example : natural_sort_key "123" = [.str [], .num 123, .str []] := by decide

example : natural_sort_key "" = [.str []] := by decide

example : cmpKey (natural_sort_key "page2.jpg") (natural_sort_key "page10.jpg") =
    some .lt := by decide

example : pysorted natLe ["10.jpg", "2.jpg", "1.jpg"] =
    ["1.jpg", "2.jpg", "10.jpg"] := by decide

example : pySplitext "foo-bar_c001_c010.zip" = ("foo-bar_c001_c010", ".zip") := by
  decide

example : pySplitext ".zip" = (".zip", "") := by decide

example : seriesName "foo-bar_c001_c010.zip" = "foo-bar" := by decide

example : seriesName "one.zip" = "" := by decide

example : pyJoin (pdfFolder "out" "foo-bar") (mangaPdfName "foo-bar" "c003") =
    "out/foo-bar/foo-bar_c003.pdf" := by decide

example :
    create_pdf_from_images "/t/c1" [⟨"2.jpg", "RGB", true⟩, ⟨"10.jpg", "P", true⟩] 10 false =
    .ok (some ⟨[⟨"2.jpg", "RGB", none⟩, ⟨"10.jpg", "RGB", none⟩], 10⟩) := by decide

example :
    generate_manga ⟨false, false, 10⟩
      [⟨"s_a_b.zip", some [⟨"c1", [⟨"001.jpg", "RGB", true⟩]⟩]⟩] "o" ⟨[], []⟩ =
    (⟨["o/s"], [("o/s", "s_c1.pdf", ⟨[⟨"001.jpg", "RGB", none⟩], 10⟩)]⟩,
      .ok (0, .processed 1)) := by decide

end Comic2Pdf
